import Mathlib

/-!
Verification development for the tike ptychography core.

This file gives a shallow embedding, in Lean 4, of the parts of the tike
repository that the checked claims are about:

- `src/tike/operators/cupy/objective.py` (noise-model objective functions),
- `src/tike/operators/propagation.py` (cost variants of the propagation
  operator),
- `src/tike/operators/cupy/patch.py` (patch extraction operator, modelled at
  the shape/dtype level; the CUDA kernel bodies live in `convolution.cu`,
  which is not part of the Python sources),
- `src/tike/ptycho/solvers/divided.py` (the divided solver control flow),
- `src/tike/ptycho/probe.py` (variable-probe module).

Machine floats are modelled as exact scalars: polymorphically over a
`DivisionRing`/`Field` where possible (so that theorems can be instantiated
both at `ℚ` for computation and at `ℝ` with `Real.sqrt`/`Real.log` for the
transcendental primitives), and complex64 values as pairs of rationals
(`Cx`).  NumPy's `sqrt` and `log` are passed as explicit function arguments
to the embedded cost functions; external library collaborators (the scipy
gaussian filter, the numpy `eigh` routine, the communicator pool) are taken
as parameters or hypotheses reflecting their documented contracts.
-/

namespace Tike

/-! ### Noise-model objective functions, from objective.py

The arrays `data` and `intensity` are real-valued; they are modelled as
flattened lists of scalars.  `cp.mean` reduces over every axis, so the
flattening is faithful.  The literals `1e-9` and `1e-32` are modelled as the
exact rationals they denote in the source text. -/

def eps9 : ℚ := 1 / 10 ^ 9

def eps32 : ℚ := 1 / 10 ^ 32

/-- Mean of a list of scalars, as computed by cp.mean over all axes. -/
def listMean {α : Type} [DivisionRing α] (xs : List α) : α :=
  xs.sum / (xs.length : α)

/-- Embedding of objective._gaussian_fuse: diff = sqrt(intensity) - sqrt(data);
diff *= conj(diff).  The inputs are real arrays, so conj(diff) = diff. -/
def gaussianFuse {α : Type} [DivisionRing α] (sqrt : α → α) (d i : α) : α :=
  (sqrt i - sqrt d) * (sqrt i - sqrt d)

/-- Embedding of objective.gaussian: cp.mean(_gaussian_fuse(data, intensity)). -/
def gaussian {α : Type} [DivisionRing α] (sqrt : α → α) (data intensity : List α) : α :=
  listMean (List.zipWith (gaussianFuse sqrt) data intensity)

/-- Embedding of objective._poisson_fuse: intensity - data * cp.log(intensity + 1e-9). -/
def poissonFuse {α : Type} [DivisionRing α] (log : α → α) (d i : α) : α :=
  i - d * log (i + ((eps9 : ℚ) : α))

/-- Embedding of objective.poisson: cp.mean(_poisson_fuse(data, intensity)). -/
def poisson {α : Type} [DivisionRing α] (log : α → α) (data intensity : List α) : α :=
  listMean (List.zipWith (poissonFuse log) data intensity)

namespace Propagation

/-- Embedding of Propagation._gaussian_cost: np.linalg.norm(np.ravel(modulus -
np.sqrt(data)))**2, i.e. the SUM of (modulus - sqrt(data))^2 over all entries.
`modulus` is the per-pattern mode-norm of the farplane computed by the
enclosing method; the cost is a function of `data` and `modulus` only. -/
def gaussian_cost {α : Type} [DivisionRing α] (sqrt : α → α) (data modulus : List α) : α :=
  (List.zipWith (fun d mo => (mo - sqrt d) ^ 2) data modulus).sum

/-- Embedding of Propagation._poisson_cost: np.sum(intensity - data *
np.log(intensity + 1e-32)), where `intensity` is the squared mode-norm of the
farplane computed by the enclosing method. -/
def poisson_cost {α : Type} [DivisionRing α] (log : α → α) (data intensity : List α) : α :=
  (List.zipWith (fun d i => i - d * log (i + ((eps32 : ℚ) : α))) data intensity).sum

end Propagation

/-- A batch made of k concatenated copies of xs. -/
def repBatch {α : Type} (k : Nat) (xs : List α) : List α :=
  (List.replicate k xs).flatten

lemma repBatch_zipWith {α β γ : Type} (f : α → β → γ) (k : Nat) (xs : List α) (ys : List β)
    (hlen : xs.length = ys.length) :
    List.zipWith f (repBatch k xs) (repBatch k ys) = repBatch k (List.zipWith f xs ys) := by
  induction k with
  | zero => simp [repBatch]
  | succ n ih =>
    simp only [repBatch, List.replicate_succ, List.flatten_cons] at *
    rw [List.zipWith_append _ _ _ _ _ hlen, ih]

lemma repBatch_sum {α : Type} [AddCommMonoid α] (k : Nat) (xs : List α) :
    (repBatch k xs).sum = k • xs.sum := by
  induction k with
  | zero => simp [repBatch]
  | succ n ih =>
    simp only [repBatch, List.replicate_succ, List.flatten_cons, List.sum_append] at *
    rw [ih, succ_nsmul, add_comm]

lemma repBatch_length {α : Type} (k : Nat) (xs : List α) :
    (repBatch k xs).length = k * xs.length := by
  induction k with
  | zero => simp [repBatch]
  | succ n ih =>
    simp only [repBatch, List.replicate_succ, List.flatten_cons, List.length_append] at *
    rw [ih]; ring

lemma listMean_repBatch {α : Type} [Field α] [CharZero α] (k : Nat) (hk : 1 ≤ k)
    (xs : List α) : listMean (repBatch k xs) = listMean xs := by
  unfold listMean
  rw [repBatch_sum, repBatch_length, nsmul_eq_mul, Nat.cast_mul]
  rcases eq_or_ne (xs.length) 0 with h0 | h0
  · rw [List.length_eq_zero] at h0
    subst h0
    simp
  · have hk0 : (k : α) ≠ 0 := Nat.cast_ne_zero.mpr (by omega)
    rw [mul_div_mul_left _ _ hk0]

/-- C1: the claim states `gaussian(data, data) == 0` and
`poisson(data, data) == 0` for all nonnegative `data`, up to epsilon-induced
rounding.  The Gaussian half holds exactly.  The Poisson half is false (see
the counterexample); as amended, `poisson(data, data)` equals the mean of
`d - d * log(d + 1e-9)` over the entries `d` of `data`, which is not zero in
general. -/
theorem claim1_cost_at_truth {α : Type} [LinearOrderedField α] (sqrt log : α → α)
    (data : List α) (hnn : ∀ d ∈ data, 0 ≤ d) :
    gaussian sqrt data data = 0 ∧
      poisson log data data =
        listMean (data.map (fun d => d - d * log (d + ((eps9 : ℚ) : α)))) := by
  constructor
  · unfold gaussian
    rw [List.zipWith_same]
    have : data.map (fun a => gaussianFuse sqrt a a) = data.map (fun _ => (0 : α)) := by
      apply List.map_congr_left
      intro a _
      simp [gaussianFuse]
    rw [this]
    simp [listMean]
  · unfold poisson
    rw [List.zipWith_same]
    rfl

/-- Witness for C1 at the concrete nonnegative batch [1, 2] over ℚ with both
numerical primitives instantiated by the identity function. -/
theorem claim1_cost_at_truth_witness :
    gaussian (fun x : ℚ => x) [1, 2] [1, 2] = 0 ∧
      poisson (fun x : ℚ => x) [1, 2] [1, 2] =
        listMean ([(1 : ℚ), 2].map (fun d => d - d * (d + ((eps9 : ℚ) : ℚ)))) :=
  claim1_cost_at_truth (fun x => x) (fun x => x) [1, 2] (by norm_num)

/-- Counterexample for C1: at the strictly positive one-element batch
data = [1], the Poisson objective evaluated at the truth is
1 - log(1 + 1e-9), which is not zero (it is not epsilon-close to zero
either: it exceeds 1/2). -/
theorem claim1_poisson_truth_counterexample :
    Tike.poisson Real.log [1] [1] ≠ 0 := by
  have hcast : ((eps9 : ℚ) : ℝ) = 1 / 10 ^ 9 := by
    unfold eps9
    push_cast
    norm_num
  have hlog : Real.log (1 + ((eps9 : ℚ) : ℝ)) ≤ (1 + ((eps9 : ℚ) : ℝ)) - 1 :=
    Real.log_le_sub_one_of_pos (by rw [hcast]; norm_num)
  have hb : Real.log (1 + ((eps9 : ℚ) : ℝ)) ≤ 1 / 10 ^ 9 := by
    rw [hcast] at hlog ⊢
    linarith
  simp only [poisson, poissonFuse, listMean, List.zipWith_cons_cons, List.zipWith_nil_right,
    List.sum_cons, List.sum_nil, List.length_cons, List.length_nil]
  intro h
  rw [div_eq_zero_iff] at h
  rcases h with h | h
  · rw [add_zero, one_mul] at h
    have : Real.log (1 + ((eps9 : ℚ) : ℝ)) = 1 := by linarith
    rw [this] at hb
    norm_num at hb
  · norm_num at h

/-- C2 as amended: the objective-module cost functions `gaussian` and
`poisson` are mean-reduced, hence invariant under replicating the batch k
times (k ≥ 1, equal-length inputs); the `Propagation._gaussian_cost` and
`Propagation._poisson_cost` variants are sum-reduced, so replicating the
batch k times multiplies the returned scalar by k. -/
theorem claim2_costs_batch_scaling {α : Type} [Field α] [CharZero α] (sqrt log : α → α)
    (k : Nat) (hk : 1 ≤ k) (data intensity : List α)
    (hlen : data.length = intensity.length) :
    gaussian sqrt (repBatch k data) (repBatch k intensity) = gaussian sqrt data intensity ∧
    poisson log (repBatch k data) (repBatch k intensity) = poisson log data intensity ∧
    Propagation.gaussian_cost sqrt (repBatch k data) (repBatch k intensity) =
      (k : α) * Propagation.gaussian_cost sqrt data intensity ∧
    Propagation.poisson_cost log (repBatch k data) (repBatch k intensity) =
      (k : α) * Propagation.poisson_cost log data intensity := by
  refine ⟨?_, ?_, ?_, ?_⟩
  · unfold gaussian
    rw [repBatch_zipWith _ _ _ _ hlen, listMean_repBatch k hk]
  · unfold poisson
    rw [repBatch_zipWith _ _ _ _ hlen, listMean_repBatch k hk]
  · unfold Propagation.gaussian_cost
    rw [repBatch_zipWith _ _ _ _ hlen, repBatch_sum, nsmul_eq_mul]
  · unfold Propagation.poisson_cost
    rw [repBatch_zipWith _ _ _ _ hlen, repBatch_sum, nsmul_eq_mul]

/-- Witness for C2 at k = 2 and the concrete equal-length batches [1, 2] and
[3, 4] over ℚ. -/
theorem claim2_costs_batch_scaling_witness :
    gaussian (fun x : ℚ => x) (repBatch 2 [1, 2]) (repBatch 2 [3, 4]) =
      gaussian (fun x : ℚ => x) [1, 2] [3, 4] ∧
    poisson (fun x : ℚ => x) (repBatch 2 [1, 2]) (repBatch 2 [3, 4]) =
      poisson (fun x : ℚ => x) [1, 2] [3, 4] ∧
    Propagation.gaussian_cost (fun x : ℚ => x) (repBatch 2 [1, 2]) (repBatch 2 [3, 4]) =
      ((2 : Nat) : ℚ) * Propagation.gaussian_cost (fun x : ℚ => x) [1, 2] [3, 4] ∧
    Propagation.poisson_cost (fun x : ℚ => x) (repBatch 2 [1, 2]) (repBatch 2 [3, 4]) =
      ((2 : Nat) : ℚ) * Propagation.poisson_cost (fun x : ℚ => x) [1, 2] [3, 4] :=
  claim2_costs_batch_scaling (fun x => x) (fun x => x) 2 (by norm_num) [1, 2] [3, 4]
    (by norm_num)

/-- Counterexample for C2: the Poisson cost variant of the Propagation
operator is sum-reduced, so doubling the batch changes the returned scalar
(data = [0], intensity = [1]: the cost doubles from 1 to 2). -/
theorem claim2_sum_reduction_counterexample :
    Tike.Propagation.poisson_cost Real.log (repBatch 2 [0]) (repBatch 2 [1]) ≠
      Tike.Propagation.poisson_cost Real.log [0] [1] := by
  have h2 : repBatch 2 ([0] : List ℝ) = [0, 0] := by
    simp [repBatch, List.replicate_succ]
  have h2' : repBatch 2 ([1] : List ℝ) = [1, 1] := by
    simp [repBatch, List.replicate_succ]
  rw [h2, h2']
  simp only [Propagation.poisson_cost, List.zipWith_cons_cons, List.zipWith_nil_right,
    List.sum_cons, List.sum_nil]
  norm_num

/-! ### Patch operator, from cupy/patch.py

`Patch.fwd` and `Patch.adj` are modelled at the shape/dtype level: the CUDA
kernels (`fwd_patch`/`adj_patch` in convolution.cu) only write array
contents and are not part of the Python sources; the Python wrappers decide
buffer allocation, default resolution, and the assertion checks, which is
what claims C3 and C10 are about.  An ndarray is modelled by its shape and
dtype.  Python negative indexing `shape[-k]` is `getNeg shape k`, and the
slices `shape[:-k]` are `takeButLast k shape`. -/

inductive Dtype : Type
  | csingle
  | single
  | other
deriving DecidableEq

structure NDArray : Type where
  shape : List Nat
  dtype : Dtype
deriving DecidableEq

/-- Python exceptions distinguished by the patch wrappers. -/
inductive PyErr : Type
  | assertionError
  | attributeError
  | zeroDivisionError
deriving DecidableEq

/-- Python shape[-k] (0 when the axis does not exist; a missing axis would
raise in Python, but every such access here is followed by an assertion that
then fails on the 0 default). -/
def getNeg (s : List Nat) (k : Nat) : Nat :=
  s.getD (s.length - k) 0

/-- Python shape[:-k]. -/
def takeButLast {α : Type} (k : Nat) (s : List α) : List α :=
  s.take (s.length - k)

namespace Patch

/-- Embedding of line 61 of patch.py, which runs BEFORE the `patches is None`
check: `patch_width = patches.shape[-1] if patch_width == 0 else patch_width`.
When `patches` is None and `patch_width` is 0 this dereferences None and
raises AttributeError. -/
def resolvePW (patchesOpt : Option NDArray) (patch_width : Nat) : Except PyErr Nat :=
  if patch_width = 0 then
    match patchesOpt with
    | none => .error .attributeError
    | some p => .ok (getNeg p.shape 1)
  else .ok patch_width

/-- Embedding of Patch.fwd at the shape/dtype level.  Returns the (shape,
dtype) of the patches array handed to the kernel together with a flag
recording whether the wrapper allocated it, or the Python exception raised.
The assertions appear in source order (patch.py lines 68-76); `assert c`
passes exactly when `c` holds.  The kernel launch itself does not change
shapes or dtypes. -/
def fwd (images positions : NDArray) (patchesOpt : Option NDArray)
    (patch_width nrepeat : Nat) : Except PyErr (NDArray × Bool) :=
  match resolvePW patchesOpt patch_width with
  | .error e => .error e
  | .ok pw =>
    let alloc : NDArray :=
      ⟨takeButLast 2 positions.shape ++ [getNeg positions.shape 2 * nrepeat, pw, pw],
        Dtype.csingle⟩
    let patches : NDArray := patchesOpt.getD alloc
    let allocated : Bool := patchesOpt.isNone
    if pw ≤ getNeg patches.shape 1 then
      if takeButLast 2 images.shape = takeButLast 2 positions.shape then
        if takeButLast 2 positions.shape = takeButLast 3 patches.shape then
          if getNeg positions.shape 2 * nrepeat = getNeg patches.shape 3 then
            if getNeg positions.shape 1 = 2 then
              if images.dtype = Dtype.csingle then
                if patches.dtype = Dtype.csingle then
                  if positions.dtype = Dtype.single then
                    .ok (patches, allocated)
                  else .error .assertionError
                else .error .assertionError
              else .error .assertionError
            else .error .assertionError
          else .error .assertionError
        else .error .assertionError
      else .error .assertionError
    else .error .assertionError

/-- Assertion chain of Patch.adj (patch.py lines 113-130), after the default
patch width and the default images accumulator have been resolved.  The
assertions appear in source order; `(N * nrepeat) % K` raises
ZeroDivisionError in Python when K = 0, which is modelled by an explicit
branch. -/
def adjChecks (positions patches images : NDArray) (pw nrepeat : Nat) :
    Except PyErr NDArray :=
  if pw ≤ getNeg patches.shape 1 then
    if takeButLast 2 positions.shape = takeButLast 2 images.shape then
      if getNeg positions.shape 1 = 2 then
        if takeButLast 3 patches.shape = takeButLast 2 images.shape then
          if getNeg patches.shape 3 = 0 then .error .zeroDivisionError
          else
            if (getNeg positions.shape 2 * nrepeat) % getNeg patches.shape 3 = 0 ∧
                nrepeat ≤ getNeg patches.shape 3 then
              if getNeg patches.shape 1 = getNeg patches.shape 2 then
                if images.dtype = Dtype.csingle then
                  if patches.dtype = Dtype.csingle then
                    if positions.dtype = Dtype.single then
                      .ok images
                    else .error .assertionError
                  else .error .assertionError
                else .error .assertionError
              else .error .assertionError
            else .error .assertionError
        else .error .assertionError
      else .error .assertionError
    else .error .assertionError
  else .error .assertionError

/-- Embedding of Patch.adj at the shape/dtype level.  Resolves the default
patch width from patches.shape[-1] (patch.py line 112) and the default
images accumulator (lines 114-118), then runs the assertion chain; returns
the (shape, dtype) of the images accumulator handed to the kernel, or the
Python exception raised. -/
def adj (positions patches : NDArray) (imagesOpt : Option NDArray)
    (patch_width height width nrepeat : Nat) : Except PyErr NDArray :=
  adjChecks positions patches
    (imagesOpt.getD ⟨takeButLast 2 positions.shape ++ [height, width], Dtype.csingle⟩)
    (if patch_width = 0 then getNeg patches.shape 1 else patch_width) nrepeat

end Patch

lemma getNeg_append3_one (s : List Nat) (a b c : Nat) : getNeg (s ++ [a, b, c]) 1 = c := by
  unfold getNeg
  rw [List.length_append]
  rw [List.getD_append_right _ _ _ _ (by simp)]
  have h1 : s.length + [a, b, c].length - 1 - s.length = 2 := by simp
  rw [h1]
  rfl

lemma getNeg_append3_three (s : List Nat) (a b c : Nat) : getNeg (s ++ [a, b, c]) 3 = a := by
  unfold getNeg
  rw [List.length_append]
  rw [List.getD_append_right _ _ _ _ (by simp)]
  have h1 : s.length + [a, b, c].length - 3 - s.length = 0 := by simp
  rw [h1]
  rfl

lemma takeButLast3_append3 (s : List Nat) (a b c : Nat) :
    takeButLast 3 (s ++ [a, b, c]) = s := by
  unfold takeButLast
  rw [List.length_append]
  have h1 : s.length + [a, b, c].length - 3 = s.length := by simp
  rw [h1, List.take_append_of_le_length (le_refl _), List.take_length]

/-- C3 as amended: when the patches output buffer is not supplied and
`patch_width` is NONZERO (and the inputs satisfy the documented shape/dtype
preconditions), Patch.fwd allocates and returns a complex64 buffer of shape
(*positions.shape[:-2], N * nrepeat, patch_width, patch_width) with
N = positions.shape[-2].  With `patch_width` left at its default value 0 the
call instead fails before allocating (see the counterexample). -/
theorem claim3_fwd_allocates (images positions : NDArray) (patch_width nrepeat : Nat)
    (hpw : patch_width ≠ 0)
    (hero : takeButLast 2 images.shape = takeButLast 2 positions.shape)
    (hpos2 : getNeg positions.shape 1 = 2)
    (hidt : images.dtype = Dtype.csingle) (hpdt : positions.dtype = Dtype.single) :
    Patch.fwd images positions none patch_width nrepeat =
      .ok (⟨takeButLast 2 positions.shape ++
            [getNeg positions.shape 2 * nrepeat, patch_width, patch_width],
          Dtype.csingle⟩, true) := by
  have hres : Patch.resolvePW none patch_width = .ok patch_width := by
    unfold Patch.resolvePW
    rw [if_neg hpw]
  unfold Patch.fwd
  rw [hres]
  simp only [Option.getD_none, Option.isNone_none]
  rw [if_pos (by rw [getNeg_append3_one]), if_pos hero,
    if_pos (by rw [takeButLast3_append3]), if_pos (by rw [getNeg_append3_three]),
    if_pos hpos2, if_pos hidt]
  simp [hpdt]

/-- Witness for C3 at a concrete call: an 8x8 image, 3 positions, patch
width 4, nrepeat 1; the wrapper allocates a (3, 4, 4) complex64 buffer. -/
theorem claim3_fwd_allocates_witness :
    Patch.fwd ⟨[8, 8], Dtype.csingle⟩ ⟨[3, 2], Dtype.single⟩ none 4 1 =
      .ok (⟨takeButLast 2 [3, 2] ++ [getNeg [3, 2] 2 * 1, 4, 4], Dtype.csingle⟩, true) :=
  claim3_fwd_allocates ⟨[8, 8], Dtype.csingle⟩ ⟨[3, 2], Dtype.single⟩ 4 1
    (by norm_num) rfl rfl rfl rfl

/-- Counterexample for C3: with the patches buffer not supplied AND
patch_width left at its default value 0, Patch.fwd raises AttributeError
(line 61 reads patches.shape before the None check) instead of allocating a
buffer. -/
theorem claim3_default_width_counterexample :
    Patch.fwd ⟨[8, 8], Dtype.csingle⟩ ⟨[3, 2], Dtype.single⟩ none 0 1 =
      .error .attributeError := rfl

/-- C10: beyond the documented preconditions, Patch.adj only processes inputs
whose patches are square (last two dimensions equal) and whose patch count
K = patches.shape[-3] satisfies K >= nrepeat and (N * nrepeat) % K == 0 with
N = positions.shape[-2]; any call that returns normally satisfies all three,
i.e. violating inputs fail an assertion (or ZeroDivisionError when K = 0)
instead of being processed.  First, the statement for the resolved
assertion chain. -/
lemma adjChecks_preconditions (positions patches images : NDArray) (pw nrepeat : Nat)
    (out : NDArray) (hok : Patch.adjChecks positions patches images pw nrepeat = .ok out) :
    getNeg patches.shape 1 = getNeg patches.shape 2 ∧
      nrepeat ≤ getNeg patches.shape 3 ∧
      (getNeg positions.shape 2 * nrepeat) % getNeg patches.shape 3 = 0 := by
  unfold Patch.adjChecks at hok
  split_ifs at hok with h1 h2 h3 h4 h5 h6 h7 h8 h9 h10
  exact ⟨h7, h6.2, h6.1⟩

/-- C10: any Patch.adj call that returns normally satisfies patch squareness,
K >= nrepeat, and (N * nrepeat) % K == 0; violating inputs fail an assertion
(or ZeroDivisionError when K = 0) instead of being processed. -/
theorem claim10_adj_preconditions (positions patches : NDArray)
    (imagesOpt : Option NDArray) (patch_width height width nrepeat : Nat)
    (out : NDArray)
    (hok : Patch.adj positions patches imagesOpt patch_width height width nrepeat = .ok out) :
    getNeg patches.shape 1 = getNeg patches.shape 2 ∧
      nrepeat ≤ getNeg patches.shape 3 ∧
      (getNeg positions.shape 2 * nrepeat) % getNeg patches.shape 3 = 0 :=
  adjChecks_preconditions positions patches
    (imagesOpt.getD ⟨takeButLast 2 positions.shape ++ [height, width], Dtype.csingle⟩)
    (if patch_width = 0 then getNeg patches.shape 1 else patch_width) nrepeat out hok

/-- Witness for C10 at a concrete successful call: 3 positions, a (3, 4, 4)
patches stack, a supplied 5x6 accumulator, nrepeat 1; the call succeeds and
the three conditions hold. -/
theorem claim10_adj_preconditions_witness :
    getNeg ([3, 4, 4] : List Nat) 1 = getNeg ([3, 4, 4] : List Nat) 2 ∧
      1 ≤ getNeg ([3, 4, 4] : List Nat) 3 ∧
      (getNeg ([3, 2] : List Nat) 2 * 1) % getNeg ([3, 4, 4] : List Nat) 3 = 0 :=
  claim10_adj_preconditions ⟨[3, 2], Dtype.single⟩ ⟨[3, 4, 4], Dtype.csingle⟩
    (some ⟨[5, 6], Dtype.csingle⟩) 0 0 0 1 ⟨[5, 6], Dtype.csingle⟩ rfl

/-! ### Divided solver, from ptycho/solvers/divided.py

The claim C6 is about the control flow of `divided` itself: which of its
inputs it threads through unchanged.  The three sub-updates (`update_phase`,
`update_object`, `update_probe`) call the operator stack and the
conjugate-gradient driver in `tike.opt`, which are outside the sources the
solver file owns; they are taken as opaque function parameters, so the
theorem holds for every behaviour of the collaborators.  The
`recover_positions` branch (lines 46-47) is commented out in the source, so
the model has no corresponding branch and `scan` flows straight to the
result. -/

structure SolverResult (Psi Pr S F C : Type) : Type where
  psi : Psi
  probe : Pr
  cost : C
  scan : S
  farplane : F

/-- Embedding of divided.divided.  `opFwd` is op.fwd, `updatePhase` is
update_phase (op and data partially applied away), `propagationAdj` is
op.propagation.adj, and `updateObject`/`updateProbe` are update_object /
update_probe with op applied away. -/
def divided {Psi Pr S F N C D : Type}
    (opFwd : Psi → S → Pr → F)
    (updatePhase : D → F → Nat → F × C)
    (propagationAdj : F → N)
    (updateObject : N → Pr → S → Psi → Nat → Psi × C)
    (updateProbe : N → Pr → S → Psi → Nat → Pr × C)
    (data : D) (probe : Pr) (scan : S) (psi : Psi)
    (recover_psi recover_probe recover_positions : Bool)
    (cg_iter : Nat) : SolverResult Psi Pr S F C :=
  let farplane0 := opFwd psi scan probe
  let pc := updatePhase data farplane0 cg_iter
  let nearplane := propagationAdj pc.1
  let oc := if recover_psi then updateObject nearplane probe scan psi cg_iter
            else (psi, pc.2)
  let rc := if recover_probe then updateProbe nearplane probe scan oc.1 cg_iter
            else (probe, oc.2)
  ⟨oc.1, rc.1, rc.2, scan, pc.1⟩

/-- C6: for every call to the divided solver (over all collaborator
behaviours), the returned scan array is the input scan unchanged; with
recover_psi disabled the returned psi is the input psi unchanged; and with
recover_probe disabled the returned probe is the input probe unchanged. -/
theorem claim6_divided_frame {Psi Pr S F N C D : Type}
    (opFwd : Psi → S → Pr → F)
    (updatePhase : D → F → Nat → F × C)
    (propagationAdj : F → N)
    (updateObject : N → Pr → S → Psi → Nat → Psi × C)
    (updateProbe : N → Pr → S → Psi → Nat → Pr × C)
    (data : D) (probe : Pr) (scan : S) (psi : Psi)
    (rψ rp rpos : Bool) (cg_iter : Nat) :
    (divided opFwd updatePhase propagationAdj updateObject updateProbe
        data probe scan psi rψ rp rpos cg_iter).scan = scan ∧
    (divided opFwd updatePhase propagationAdj updateObject updateProbe
        data probe scan psi false rp rpos cg_iter).psi = psi ∧
    (divided opFwd updatePhase propagationAdj updateObject updateProbe
        data probe scan psi rψ false rpos cg_iter).probe = probe := by
  refine ⟨rfl, ?_, ?_⟩ <;> simp [divided]

/-! ### Exact complex scalars

complex64 values are modelled as pairs of rationals with the usual complex
ring structure; conj and the squared absolute value are the operations the
probe module uses. -/

structure Cx : Type where
  re : ℚ
  im : ℚ
deriving DecidableEq

namespace Cx

@[ext] lemma ext_re_im {a b : Cx} (h1 : a.re = b.re) (h2 : a.im = b.im) : a = b := by
  cases a; cases b; simp_all

instance : Zero Cx := ⟨⟨0, 0⟩⟩

instance : One Cx := ⟨⟨1, 0⟩⟩

instance : Add Cx := ⟨fun a b => ⟨a.re + b.re, a.im + b.im⟩⟩

instance : Neg Cx := ⟨fun a => ⟨-a.re, -a.im⟩⟩

instance : Mul Cx := ⟨fun a b => ⟨a.re * b.re - a.im * b.im, a.re * b.im + a.im * b.re⟩⟩

@[simp] lemma zero_re : (0 : Cx).re = 0 := rfl

@[simp] lemma zero_im : (0 : Cx).im = 0 := rfl

@[simp] lemma one_re : (1 : Cx).re = 1 := rfl

@[simp] lemma one_im : (1 : Cx).im = 0 := rfl

@[simp] lemma add_re (a b : Cx) : (a + b).re = a.re + b.re := rfl

@[simp] lemma add_im (a b : Cx) : (a + b).im = a.im + b.im := rfl

@[simp] lemma neg_re (a : Cx) : (-a).re = -a.re := rfl

@[simp] lemma neg_im (a : Cx) : (-a).im = -a.im := rfl

@[simp] lemma mul_re (a b : Cx) : (a * b).re = a.re * b.re - a.im * b.im := rfl

@[simp] lemma mul_im (a b : Cx) : (a * b).im = a.re * b.im + a.im * b.re := rfl

instance : CommRing Cx where
  add_assoc := by intros; ext <;> simp <;> ring
  zero_add := by intros; ext <;> simp
  add_zero := by intros; ext <;> simp
  add_comm := by intros; ext <;> simp <;> ring
  left_distrib := by intros; ext <;> simp <;> ring
  right_distrib := by intros; ext <;> simp <;> ring
  zero_mul := by intros; ext <;> simp
  mul_zero := by intros; ext <;> simp
  mul_assoc := by intros; ext <;> simp <;> ring
  one_mul := by intros; ext <;> simp
  mul_one := by intros; ext <;> simp
  neg_add_cancel := by intros; ext <;> simp
  mul_comm := by intros; ext <;> simp <;> ring
  nsmul := nsmulRec
  zsmul := zsmulRec

/-- Complex conjugate. -/
def conj (z : Cx) : Cx := ⟨z.re, -z.im⟩

/-- Squared absolute value, np.square(np.abs(z)). -/
def normSq (z : Cx) : ℚ := z.re * z.re + z.im * z.im

/-- The real number q as a complex scalar. -/
def ofRat (q : ℚ) : Cx := ⟨q, 0⟩

/-- Multiplication by a real scalar (broadcasting a real array against a
complex one). -/
def scale (q : ℚ) (z : Cx) : Cx := ⟨q * z.re, q * z.im⟩

@[simp] lemma conj_re (z : Cx) : z.conj.re = z.re := rfl

@[simp] lemma conj_im (z : Cx) : z.conj.im = -z.im := rfl

@[simp] lemma ofRat_re (q : ℚ) : (ofRat q).re = q := rfl

@[simp] lemma ofRat_im (q : ℚ) : (ofRat q).im = 0 := rfl

lemma conj_add (a b : Cx) : (a + b).conj = a.conj + b.conj := by
  ext <;> simp [conj] <;> ring

lemma conj_mul (a b : Cx) : (a * b).conj = a.conj * b.conj := by
  ext <;> simp [conj] <;> ring

@[simp] lemma conj_zero : (0 : Cx).conj = 0 := by
  ext <;> simp [conj]

lemma conj_sum {ι : Type} (s : Finset ι) (f : ι → Cx) :
    (∑ i ∈ s, f i).conj = ∑ i ∈ s, (f i).conj := by
  induction s using Finset.cons_induction with
  | empty => simp
  | cons a s ha ih => rw [Finset.sum_cons, Finset.sum_cons, conj_add, ih]

lemma ofRat_add (p q : ℚ) : ofRat (p + q) = ofRat p + ofRat q := by
  ext <;> simp

lemma ofRat_mul (p q : ℚ) : ofRat (p * q) = ofRat p * ofRat q := by
  ext <;> simp

@[simp] lemma ofRat_zero : ofRat 0 = 0 := by
  ext <;> simp

lemma ofRat_sum {ι : Type} (s : Finset ι) (f : ι → ℚ) :
    ofRat (∑ i ∈ s, f i) = ∑ i ∈ s, ofRat (f i) := by
  induction s using Finset.cons_induction with
  | empty => simp
  | cons a s ha ih => rw [Finset.sum_cons, Finset.sum_cons, ofRat_add, ih]

lemma conj_mul_self (z : Cx) : z.conj * z = ofRat z.normSq := by
  ext <;> simp [conj, normSq] <;> ring

end Cx

/-! ### Variable-probe module, from ptycho/probe.py

Weights arrays have shape (POSI, EIGEN, SHARED) and are real (float32);
they are modelled as functions Fin P → Fin E → Fin S → ℚ.  np.mean over the
position axis (axis=-3) is the Finset sum divided by P. -/

def eps6 : ℚ := 1 / 10 ^ 6

/-- Embedding of the weights construction inside init_varying_probe
(probe.py lines 399-408).  `rand` stands for the np.random.rand sample.  In
source order: weights = 1e-6 * rand(POSI, EIGEN, SHARED); subtract the mean
over the position axis; set the zeroth eigen row to 1.0; zero rows 1: for
shared probes >= probes_with_modes. -/
def initWeights (P E S pwm : Nat) (rand : Fin P → Fin E → Fin S → ℚ) :
    Fin P → Fin E → Fin S → ℚ :=
  fun p e s =>
    if (e : Nat) = 0 then 1
    else if pwm ≤ (s : Nat) then 0
    else eps6 * rand p e s - (∑ q, eps6 * rand q e s) / (P : ℚ)

/-- Embedding of init_varying_probe restricted to its weights result
(the eigen-probe half of the return value is independent of the weights and
is not needed by the claims).  Raises for probes_with_modes >
shared_probe.shape[-3] and returns None for num_eigen_probes < 1,
as in probe.py lines 391-397. -/
def init_varying_probe (P E S pwm : Nat) (rand : Fin P → Fin E → Fin S → ℚ) :
    Except String (Option (Fin P → Fin E → Fin S → ℚ)) :=
  if S < pwm then
    .error "probes_with_modes cannot be more than the number of probes!"
  else if E < 1 then .ok none
  else .ok (some (initWeights P E S pwm rand))

/-- Embedding of the update_eigen_probe._get_weights_mean mutation of the
selected (c, m) weights column (probe.py lines 293-301): d += 0.1 * d_mean;
weights[..., c:c+1, m:m+1] += n / d.  Only the selected column is touched;
the function returns that column after the update.  The in-source comment
claims the result is "constrained to zero-mean", but no recentering is
performed. -/
def get_weights_mean (P : Nat) (n d : Fin P → ℚ) (d_mean : ℚ) (w : Fin P → ℚ) :
    Fin P → ℚ :=
  fun p => w p + n p / (d p + (1 / 10) * d_mean)

/-- C4: evaluation of the code at a failing input.  init_varying_probe does
establish the invariant (first two conjuncts: at P = 2 positions, E = 2
eigen modes, the eigen-1 weights column is zero-mean over positions and the
zeroth row is 1).  But _get_weights_mean does not preserve it: the zero-mean
column (1/2, -1/2), updated with n = (1, 1), d = (9/10, 9/10),
d_mean = 1, becomes (3/2, 1/2), whose sum over positions is 2, not 0. -/
theorem claim4_zero_mean_not_preserved :
    (∑ p : Fin 2, initWeights 2 2 1 1 (fun q _ _ => (q : ℚ)) p 1 0) = 0 ∧
    (∀ p : Fin 2, initWeights 2 2 1 1 (fun q _ _ => (q : ℚ)) p 0 0 = 1) ∧
    (∑ p : Fin 2, (![(1 : ℚ) / 2, -(1 / 2)] : Fin 2 → ℚ) p) = 0 ∧
    (∑ p : Fin 2,
      get_weights_mean 2 ![1, 1] ![9 / 10, 9 / 10] 1 ![(1 : ℚ) / 2, -(1 / 2)] p) = 2 := by
  refine ⟨?_, ?_, ?_, ?_⟩
  · simp [Fin.sum_univ_two, initWeights]
    ring
  · intro p
    simp [initWeights]
  · simp [Fin.sum_univ_two]
  · simp [Fin.sum_univ_two, get_weights_mean]
    norm_num

/-- Per-position accumulated squared magnitude of the selected weights
column: np.linalg.norm(weights, axis=-5, keepdims=True)**2 in _get_update,
one entry per leading batch index b. -/
def normW {B P : Nat} (w : Fin B → Fin P → ℚ) (b : Fin B) : ℚ :=
  ∑ p, (w b p) ^ 2

/-- Embedding of update_eigen_probe._get_update (probe.py lines 212-227).
`R` is the residual update stack (batch, position, pixel), `eigen_probe` the
selected eigen mode (batch, pixel; it broadcasts over positions), `w` the
selected weights column.  Raises ValueError when every entry of the
norm-weights array is zero; otherwise returns the weighted position-averaged
projection of R onto the eigen probe. -/
def get_update {B P Q : Nat} (R : Fin B → Fin P → Fin Q → Cx)
    (eigen_probe : Fin B → Fin Q → Cx) (w : Fin B → Fin P → ℚ) :
    Except String (Fin B → Fin Q → Cx) :=
  if ∀ b, normW w b = 0 then .error "eigen_probe weights cannot all be zero?"
  else
    .ok fun b q =>
      Cx.scale (1 / (P : ℚ))
        (∑ p, Cx.scale
          ((1 / (Q : ℚ)) *
            ∑ r, (((R b p r).conj * eigen_probe b r).re + w b p) / normW w b)
          (R b p q))

/-- Modelled from the spec: the Communicator's `pool.map` applies the worker
function to each worker's data; per the error-handling design, a failure on
any worker aborts the enclosing call, so the combinator is fail-fast.  The
communicator implementation itself is not among the sources (only its test
suite is). -/
def poolMap {A B : Type} (fn : A → Except String B) : List A → Except String (List B)
  | [] => .ok []
  | a :: t =>
    match fn a with
    | .error e => .error e
    | .ok b =>
      match poolMap fn t with
      | .error e => .error e
      | .ok bs => .ok (b :: bs)

lemma poolMap_ok_iff {A B : Type} (fn : A → Except String B) (l : List A) :
    (∃ us, poolMap fn l = .ok us) ↔ ∀ a ∈ l, ∃ b, fn a = .ok b := by
  induction l with
  | nil => simp [poolMap]
  | cons a t ih =>
    simp only [List.mem_cons]
    constructor
    · rintro ⟨us, hus⟩
      unfold poolMap at hus
      cases hfa : fn a with
      | error e => rw [hfa] at hus; exact absurd hus (by simp)
      | ok b =>
        rw [hfa] at hus
        cases hft : poolMap fn t with
        | error e => rw [hft] at hus; exact absurd hus (by simp)
        | ok bs =>
          refine fun x hx => hx.elim (fun hxa => hxa ▸ ⟨b, hfa⟩) fun hxt => ?_
          exact (ih.mp ⟨bs, hft⟩) x hxt
    · intro h
      obtain ⟨b, hb⟩ := h a (Or.inl rfl)
      obtain ⟨bs, hbs⟩ := ih.mpr fun x hx => h x (Or.inr hx)
      refine ⟨b :: bs, ?_⟩
      unfold poolMap
      rw [hb, hbs]

lemma normW_eq_zero_iff {B P : Nat} (w : Fin B → Fin P → ℚ) (b : Fin B) :
    normW w b = 0 ↔ ∀ p, w b p = 0 := by
  unfold normW
  rw [Finset.sum_eq_zero_iff_of_nonneg fun p _ => sq_nonneg (w b p)]
  constructor
  · intro h p
    have hz := h p (Finset.mem_univ p)
    exact (pow_eq_zero_iff (by norm_num : (2 : Nat) ≠ 0)).mp hz
  · intro h p _
    rw [h p]
    norm_num

/-- C5: update_eigen_probe raises its explicit ValueError exactly when, on a
worker, the per-position accumulated squared weight magnitude is zero for
every array entry, which happens exactly when every entry of the selected
weights column is zero; when at least one entry is nonzero the update
proceeds and returns a value.  Mapped over a pool of workers, the whole call
succeeds exactly when every worker has some nonzero weight entry. -/
theorem claim5_degenerate_norm_error {B P Q : Nat}
    (R : Fin B → Fin P → Fin Q → Cx) (e : Fin B → Fin Q → Cx)
    (w : Fin B → Fin P → ℚ)
    (ws : List ((Fin B → Fin P → Fin Q → Cx) × (Fin B → Fin Q → Cx) ×
      (Fin B → Fin P → ℚ))) :
    (get_update R e w = .error "eigen_probe weights cannot all be zero?" ↔
      ∀ b, normW w b = 0) ∧
    ((∃ u, get_update R e w = .ok u) ↔ ∃ b p, w b p ≠ 0) ∧
    ((∃ us, poolMap (fun t => get_update t.1 t.2.1 t.2.2) ws = .ok us) ↔
      ∀ t ∈ ws, ∃ b p, t.2.2 b p ≠ 0) := by
  have herr : ∀ (R' : Fin B → Fin P → Fin Q → Cx) (e' : Fin B → Fin Q → Cx)
      (w' : Fin B → Fin P → ℚ),
      ((∃ u, get_update R' e' w' = .ok u) ↔ ∃ b p, w' b p ≠ 0) := by
    intro R' e' w'
    unfold get_update
    by_cases h : ∀ b, normW w' b = 0
    · rw [if_pos h]
      constructor
      · rintro ⟨u, hu⟩
        exact absurd hu (by simp)
      · rintro ⟨b, p, hbp⟩
        exact absurd ((normW_eq_zero_iff w' b).mp (h b) p) hbp
    · rw [if_neg h]
      push_neg at h
      obtain ⟨b, hb⟩ := h
      constructor
      · intro _
        rcases (not_forall.mp fun hall => hb ((normW_eq_zero_iff w' b).mpr hall)) with ⟨p, hp⟩
        exact ⟨b, p, hp⟩
      · intro _
        exact ⟨_, rfl⟩
  refine ⟨?_, herr R e w, ?_⟩
  · unfold get_update
    by_cases h : ∀ b, normW w b = 0
    · rw [if_pos h]
      exact iff_of_true rfl h
    · rw [if_neg h]
      constructor
      · intro hc
        exact absurd hc (by simp)
      · intro hc
        exact absurd hc h
  · rw [poolMap_ok_iff]
    constructor
    · intro h t ht
      exact (herr t.1 t.2.1 t.2.2).mp (h t ht)
    · intro h t ht
      exact (herr t.1 t.2.1 t.2.2).mpr (h t ht)

/-! ### Weight outlier clipping, from constrain_variable_probe -/

/-- np.percentile with q = 95 and linear interpolation: sort ascending, take
the virtual index (95/100)(n-1), and interpolate linearly between the two
neighbouring order statistics. -/
def percentile95 (xs : List ℚ) : ℚ :=
  let s := List.insertionSort (· ≤ ·) xs
  let pos : ℚ := (95 / 100) * ((xs.length : ℚ) - 1)
  let i : Nat := Int.toNat ⌊pos⌋
  let lo := s.getD i 0
  let hi := s.getD (min (i + 1) (xs.length - 1)) 0
  lo + (pos - (i : ℚ)) * (hi - lo)

/-- np.sign on a real scalar. -/
def qsign (q : ℚ) : ℚ := if q < 0 then -1 else if q = 0 then 0 else 1

/-- The per-column list of absolute weights that cp.percentile reduces over
(axis=-3 is the position axis of the (POSI, EIGEN, SHARED) weights). -/
def weightsColAbs {P E S : Nat} (w : Fin P → Fin E → Fin S → ℚ) (e : Fin E) (s : Fin S) :
    List ℚ :=
  (List.finRange P).map fun p => |w p e s|

/-- Embedding of the weights half of constrain_variable_probe (probe.py
lines 143-153): weights = minimum(|weights|, 1.5 * percentile95(|weights|,
axis=-3)) * sign(weights).  The probe half orthogonalizes the variable probe
via tike.linalg.orthogonalize_gs (outside the sources) and does not touch
the weights. -/
def constrain_variable_probe_weights {P E S : Nat} (w : Fin P → Fin E → Fin S → ℚ) :
    Fin P → Fin E → Fin S → ℚ :=
  fun p e s =>
    min |w p e s| ((3 / 2) * percentile95 (weightsColAbs w e s)) * qsign (w p e s)

lemma getD_nonneg (l : List ℚ) (h : ∀ x ∈ l, 0 ≤ x) (i : Nat) : 0 ≤ l.getD i 0 := by
  rw [List.getD_eq_getElem?_getD]
  cases hg : l[i]? with
  | none => simp
  | some x =>
    have hx : x ∈ l := List.getElem?_mem hg
    simpa using h x hx

lemma percentile95_nonneg (xs : List ℚ) (h : ∀ x ∈ xs, 0 ≤ x) : 0 ≤ percentile95 xs := by
  simp only [percentile95]
  have hmem : ∀ x ∈ List.insertionSort (· ≤ ·) xs, 0 ≤ x := fun x hx =>
    h x ((List.perm_insertionSort (· ≤ ·) xs).mem_iff.mp hx)
  rcases Nat.eq_zero_or_pos xs.length with h0 | hpos
  · have hsl : List.insertionSort (· ≤ ·) xs = [] := by
      have hlen := (List.perm_insertionSort (· ≤ ·) xs).length_eq
      rw [h0] at hlen
      exact List.length_eq_zero.mp hlen
    rw [hsl]
    simp
  · have hpge : (0 : ℚ) ≤ (95 / 100) * ((xs.length : ℚ) - 1) := by
      have : (1 : ℚ) ≤ (xs.length : ℚ) := by exact_mod_cast hpos
      nlinarith
    set pos : ℚ := (95 / 100) * ((xs.length : ℚ) - 1) with hpdef
    have hfloor : (0 : ℤ) ≤ ⌊pos⌋ := Int.floor_nonneg.mpr hpge
    have hcast : ((Int.toNat ⌊pos⌋ : Nat) : ℚ) = (⌊pos⌋ : ℚ) := by
      have hz : ((Int.toNat ⌊pos⌋ : Nat) : ℤ) = ⌊pos⌋ := Int.toNat_of_nonneg hfloor
      exact_mod_cast hz
    have hfr0 : (0 : ℚ) ≤ pos - (Int.toNat ⌊pos⌋ : Nat) := by
      rw [hcast]
      have := Int.floor_le pos
      linarith
    have hfr1 : pos - (Int.toNat ⌊pos⌋ : Nat) ≤ 1 := by
      rw [hcast]
      have := Int.lt_floor_add_one pos
      linarith
    have hlo : 0 ≤ (List.insertionSort (· ≤ ·) xs).getD (Int.toNat ⌊pos⌋) 0 :=
      getD_nonneg _ hmem _
    have hhi : 0 ≤ (List.insertionSort (· ≤ ·) xs).getD
        (min (Int.toNat ⌊pos⌋ + 1) (xs.length - 1)) 0 :=
      getD_nonneg _ hmem _
    set lo := (List.insertionSort (· ≤ ·) xs).getD (Int.toNat ⌊pos⌋) 0
    set hi := (List.insertionSort (· ≤ ·) xs).getD
      (min (Int.toNat ⌊pos⌋ + 1) (xs.length - 1)) 0
    nlinarith

lemma qsign_mul_self (q : ℚ) : qsign q * q = |q| := by
  unfold qsign
  rcases lt_trichotomy q 0 with h | h | h
  · rw [if_pos h, abs_of_neg h]
    ring
  · subst h
    simp
  · rw [if_neg (by linarith), if_neg (by linarith), abs_of_pos h]
    ring

lemma abs_qsign_le_one (q : ℚ) : |qsign q| ≤ 1 := by
  unfold qsign
  split_ifs <;> norm_num

/-- C9: for every weights array, constrain_variable_probe returns weights
whose every element equals sign(w) * min(|w|, 1.5 * P95) where P95 is the
95th percentile of |weights| along the position axis of that eigen/shared
column; consequently every output magnitude is at most 1.5 * P95 and no
weight changes sign (the product of output and input is nonnegative). -/
theorem claim9_weights_outlier_clipping {P E S : Nat}
    (w : Fin P → Fin E → Fin S → ℚ) :
    (∀ p e s, constrain_variable_probe_weights w p e s =
      qsign (w p e s) *
        min |w p e s| ((3 / 2) * percentile95 (weightsColAbs w e s))) ∧
    (∀ p e s, |constrain_variable_probe_weights w p e s| ≤
      (3 / 2) * percentile95 (weightsColAbs w e s)) ∧
    (∀ p e s, 0 ≤ constrain_variable_probe_weights w p e s * w p e s) := by
  have h95 : ∀ (e : Fin E) (s : Fin S), 0 ≤ percentile95 (weightsColAbs w e s) := by
    intro e s
    refine percentile95_nonneg _ fun x hx => ?_
    obtain ⟨p, _, rfl⟩ := List.mem_map.mp hx
    exact abs_nonneg _
  refine ⟨fun p e s => mul_comm _ _, fun p e s => ?_, fun p e s => ?_⟩
  · have hc : (0 : ℚ) ≤ (3 / 2) * percentile95 (weightsColAbs w e s) := by
      have := h95 e s
      linarith
    have hmin : (0 : ℚ) ≤ min |w p e s| ((3 / 2) * percentile95 (weightsColAbs w e s)) :=
      le_min (abs_nonneg _) hc
    unfold constrain_variable_probe_weights
    rw [abs_mul, abs_of_nonneg hmin]
    calc min |w p e s| ((3 / 2) * percentile95 (weightsColAbs w e s)) * |qsign (w p e s)| ≤
        min |w p e s| ((3 / 2) * percentile95 (weightsColAbs w e s)) * 1 :=
          mul_le_mul_of_nonneg_left (abs_qsign_le_one _) hmin
      _ ≤ (3 / 2) * percentile95 (weightsColAbs w e s) := by
          rw [mul_one]
          exact min_le_right _ _
  · have hc : (0 : ℚ) ≤ (3 / 2) * percentile95 (weightsColAbs w e s) := by
      have := h95 e s
      linarith
    have hmin : (0 : ℚ) ≤ min |w p e s| ((3 / 2) * percentile95 (weightsColAbs w e s)) :=
      le_min (abs_nonneg _) hc
    unfold constrain_variable_probe_weights
    rw [mul_assoc, qsign_mul_self]
    exact mul_nonneg hmin (abs_nonneg _)

/-! ### Sparsity constraint, from constrain_probe_sparsity

The probe stack is reshaped to 3D (modes, height, width); the combined
intensity is the sum over modes of the squared absolute values.  The scipy
gaussian filter is an external collaborator and is taken as an abstract
`smooth` parameter.  np.argpartition(intensity, k)[:k] selects k distinct
flat coordinates carrying the k smallest smoothed-intensity values (ties
broken arbitrarily); it is modelled as a stable ascending sort of the
row-major coordinate list followed by take k, a valid refinement for the
counting claims, which depend only on the selection being k distinct
coordinates. -/

def combinedIntensity {M H W : Nat} (probe : Fin M → Fin H → Fin W → Cx) :
    Fin H → Fin W → ℚ :=
  fun h w => ∑ m, (probe m h w).normSq

/-- Row-major list of all pixel coordinates (the flattened order used by
argpartition with axis=None and cp.unravel_index). -/
def coordList (H W : Nat) : List (Fin H × Fin W) :=
  (List.finRange H) ×ˢ (List.finRange W)

/-- The k coordinates with smallest values (stable ascending sort, take k). -/
def smallestCoords {H W : Nat} (vals : Fin H → Fin W → ℚ) (k : Nat) :
    List (Fin H × Fin W) :=
  (List.insertionSort (fun a b => vals a.1 a.2 ≤ vals b.1 b.2) (coordList H W)).take k

/-- Embedding of constrain_probe_sparsity (probe.py lines 526-546): return
the probe unchanged when f == 1; otherwise zero, in every mode, the
k = int((1 - f) * width * height) pixels whose smoothed combined intensity
is smallest. -/
def constrain_probe_sparsity {M H W : Nat}
    (smooth : (Fin H → Fin W → ℚ) → Fin H → Fin W → ℚ)
    (probe : Fin M → Fin H → Fin W → Cx) (f : ℚ) : Fin M → Fin H → Fin W → Cx :=
  if f = 1 then probe
  else
    fun m h w =>
      if (h, w) ∈ smallestCoords (smooth (combinedIntensity probe))
          (Int.toNat ⌊(1 - f) * ((W : ℚ) * (H : ℚ))⌋) then 0
      else probe m h w

lemma coordList_nodup (H W : Nat) : (coordList H W).Nodup :=
  List.Nodup.product (List.nodup_finRange H) (List.nodup_finRange W)

lemma smallestCoords_nodup {H W : Nat} (vals : Fin H → Fin W → ℚ) (k : Nat) :
    (smallestCoords vals k).Nodup :=
  (List.take_sublist k _).nodup
    (((List.perm_insertionSort _ (coordList H W)).nodup_iff).mpr (coordList_nodup H W))

lemma coordList_length (H W : Nat) : (coordList H W).length = H * W := by
  unfold coordList
  rw [List.length_product, List.length_finRange, List.length_finRange]

lemma smallestCoords_length {H W : Nat} (vals : Fin H → Fin W → ℚ) (k : Nat)
    (hk : k ≤ H * W) : (smallestCoords vals k).length = k := by
  unfold smallestCoords
  rw [List.length_take, (List.perm_insertionSort _ (coordList H W)).length_eq,
    coordList_length]
  omega

/-- C8 as amended: for every probe and fraction f with 0 < f <= 1, after
constrain_probe_sparsity(probe, f) the number of pixel coordinates that are
exactly zero across all modes is at least k = int((1 - f) * width * height)
(the floor, which can be strictly below the real number (1 - f) * width *
height); no upper bound holds in general because pixels that were already
zero stay zero. -/
theorem claim8_sparsity_zero_count {M H W : Nat}
    (smooth : (Fin H → Fin W → ℚ) → Fin H → Fin W → ℚ)
    (probe : Fin M → Fin H → Fin W → Cx) (f : ℚ) (h0 : 0 < f) (h1 : f ≤ 1) :
    Int.toNat ⌊(1 - f) * ((W : ℚ) * (H : ℚ))⌋ ≤
      (Finset.univ.filter fun hw : Fin H × Fin W =>
        ∀ m, constrain_probe_sparsity smooth probe f m hw.1 hw.2 = 0).card := by
  by_cases hf : f = 1
  · subst hf
    simp
  · have hkle : Int.toNat ⌊(1 - f) * ((W : ℚ) * (H : ℚ))⌋ ≤ H * W := by
      have hfw : 0 ≤ f * ((W : ℚ) * (H : ℚ)) := by positivity
      have hx : (1 - f) * ((W : ℚ) * (H : ℚ)) ≤ ((H * W : Nat) : ℚ) := by
        push_cast
        nlinarith [hfw]
      have hfl := Int.floor_le_floor hx
      rw [Int.floor_natCast] at hfl
      calc Int.toNat ⌊(1 - f) * ((W : ℚ) * (H : ℚ))⌋ ≤ Int.toNat ((H * W : Nat) : Int) :=
            Int.toNat_le_toNat hfl
        _ = H * W := Int.toNat_natCast _
    have hsub : (smallestCoords (smooth (combinedIntensity probe))
        (Int.toNat ⌊(1 - f) * ((W : ℚ) * (H : ℚ))⌋)).toFinset ⊆
        Finset.univ.filter fun hw : Fin H × Fin W =>
          ∀ m, constrain_probe_sparsity smooth probe f m hw.1 hw.2 = 0 := by
      intro hw hmem
      rw [List.mem_toFinset] at hmem
      rw [Finset.mem_filter]
      refine ⟨Finset.mem_univ _, fun m => ?_⟩
      simp only [constrain_probe_sparsity, if_neg hf]
      rw [if_pos hmem]
    calc Int.toNat ⌊(1 - f) * ((W : ℚ) * (H : ℚ))⌋ =
          (smallestCoords (smooth (combinedIntensity probe))
            (Int.toNat ⌊(1 - f) * ((W : ℚ) * (H : ℚ))⌋)).length :=
          (smallestCoords_length _ _ hkle).symm
      _ = (smallestCoords (smooth (combinedIntensity probe))
            (Int.toNat ⌊(1 - f) * ((W : ℚ) * (H : ℚ))⌋)).toFinset.card :=
          (List.toFinset_card_of_nodup (smallestCoords_nodup _ _)).symm
      _ ≤ _ := Finset.card_le_card hsub

/-- Witness for C8 at a concrete call: one all-ones 3x3 probe mode, f = 1/2,
identity smoothing; at least int(4.5) = 4 pixel coordinates end up zero. -/
theorem claim8_sparsity_zero_count_witness :
    (0 : ℚ) < 1 / 2 ∧ (1 / 2 : ℚ) ≤ 1 ∧
      Int.toNat ⌊((1 : ℚ) - 1 / 2) * ((3 : ℚ) * 3)⌋ ≤
        (Finset.univ.filter fun hw : Fin 3 × Fin 3 =>
          ∀ m : Fin 1, constrain_probe_sparsity (fun v => v)
            (fun _ _ _ => (1 : Cx)) (1 / 2) m hw.1 hw.2 = 0).card :=
  ⟨by norm_num, by norm_num,
    claim8_sparsity_zero_count (fun v => v) (fun _ _ _ => (1 : Cx)) (1 / 2)
      (by norm_num) (by norm_num)⟩

/-- Counterexample for C8: with one all-ones 3x3 probe mode and f = 1/2, the
zeroed-pixel count is exactly int(4.5) = 4, which is strictly below the
claim's lower bound (1 - f) * width * height = 4.5. -/
theorem claim8_sparsity_counterexample :
    (((Finset.univ.filter fun hw : Fin 3 × Fin 3 =>
        ∀ m : Fin 1, constrain_probe_sparsity (fun v => v)
          (fun _ _ _ => (1 : Cx)) (1 / 2) m hw.1 hw.2 = 0).card : ℚ)) <
      ((1 : ℚ) - 1 / 2) * ((3 : ℚ) * 3) := by
  have hf : (1 / 2 : ℚ) ≠ 1 := by norm_num
  have hone : (1 : Cx) ≠ 0 := by
    intro hc
    have := congrArg Cx.re hc
    norm_num at this
  have hsub : (Finset.univ.filter fun hw : Fin 3 × Fin 3 =>
      ∀ m : Fin 1, constrain_probe_sparsity (fun v => v)
        (fun _ _ _ => (1 : Cx)) (1 / 2) m hw.1 hw.2 = 0) ⊆
      (smallestCoords
        (combinedIntensity (fun _ _ _ => (1 : Cx) : Fin 1 → Fin 3 → Fin 3 → Cx))
        4).toFinset := by
    intro hw hmem
    rw [Finset.mem_filter] at hmem
    have h0 := hmem.2 0
    simp only [constrain_probe_sparsity, if_neg hf] at h0
    norm_num [Int.toNat_ofNat] at h0
    rw [List.mem_toFinset]
    by_contra hnot
    exact hone (h0 hnot)
  have hcard := Finset.card_le_card hsub
  have hlen : (smallestCoords
      (combinedIntensity (fun _ _ _ => (1 : Cx) : Fin 1 → Fin 3 → Fin 3 → Cx))
      4).toFinset.card ≤ 4 := by
    refine le_trans (List.toFinset_card_le _) ?_
    unfold smallestCoords
    rw [List.length_take]
    exact min_le_left _ _
  have hle : ((Finset.univ.filter fun hw : Fin 3 × Fin 3 =>
      ∀ m : Fin 1, constrain_probe_sparsity (fun v => v)
        (fun _ _ _ => (1 : Cx)) (1 / 2) m hw.1 hw.2 = 0).card) ≤ 4 :=
    le_trans hcard hlen
  have hleq : (((Finset.univ.filter fun hw : Fin 3 × Fin 3 =>
      ∀ m : Fin 1, constrain_probe_sparsity (fun v => v)
        (fun _ _ _ => (1 : Cx)) (1 / 2) m hw.1 hw.2 = 0).card : ℚ)) ≤ 4 := by
    exact_mod_cast hle
  have hrhs : ((1 : ℚ) - 1 / 2) * ((3 : ℚ) * 3) = 9 / 2 := by norm_num
  linarith

/-! ### Mode orthogonalization, from orthogonalize_eig

probe.py builds the pairwise dot-product matrix A (lower half only, upper
half implied by conjugate symmetry, matching eigh with UPLO='L'),
eigendecomposes it with xp.linalg.eigh, reverses the eigenvector columns
(eigh returns ascending eigenvalues) and applies the transposed result to
the flattened modes.  numpy's eigh is an external collaborator: its
documented postconditions — V has orthonormal columns (and, being square
unitary, orthonormal rows) and A V = V diag(lam) with real lam — are taken
as hypotheses. -/

lemma Cx.conj_conj (z : Cx) : z.conj.conj = z := by
  ext <;> simp [Cx.conj]

/-- Embedding of the matrix A of orthogonalize_eig (probe.py lines 444-454)
as read by eigh(UPLO='L'): entries on or below the diagonal are the computed
sums conj(x_i) . x_j; entries above the diagonal are the conjugates of their
mirror images. -/
def gramL {n p : Nat} (x : Fin n → Fin p → Cx) (i j : Fin n) : Cx :=
  if (j : Nat) ≤ (i : Nat) then ∑ q, (x i q).conj * x j q
  else (∑ q, (x j q).conj * x i q).conj

/-- Embedding of the final line of orthogonalize_eig: with V the
eigenvector matrix returned by eigh, the result is
(vectors[..., ::-1].swapaxes(-1, -2)) @ x.reshape(nmodes, -1), i.e. mode k
of the output is sum_j V[j, rev k] * x[j]. -/
def orthogonalize_eig {n p : Nat} (x : Fin n → Fin p → Cx)
    (V : Fin n → Fin n → Cx) : Fin n → Fin p → Cx :=
  fun k q => ∑ j, V j k.rev * x j q

/-- Conjugate inner product of two flattened modes. -/
def cInner {p : Nat} (u v : Fin p → Cx) : Cx := ∑ q, (u q).conj * v q

lemma gramL_eq {n p : Nat} (x : Fin n → Fin p → Cx) (i j : Fin n) :
    gramL x i j = ∑ q, (x i q).conj * x j q := by
  unfold gramL
  split_ifs with h
  · rfl
  · rw [Cx.conj_sum]
    apply Finset.sum_congr rfl
    intro q _
    rw [Cx.conj_mul, Cx.conj_conj, mul_comm]

/-- C7: for every mode stack x and every eigendecomposition (V, lam) of its
pairwise dot-product matrix with V unitary (orthonormal columns and rows)
and real eigenvalues — numpy.linalg.eigh's postcondition — the output of
orthogonalize_eig has the same shape as x (it is again an n x p mode stack
by construction), its modes are pairwise orthogonal under the conjugate
inner product, and its total energy equals that of x. -/
theorem claim7_orthogonalize_eig {n p : Nat} (x : Fin n → Fin p → Cx)
    (V : Fin n → Fin n → Cx) (lam : Fin n → ℚ)
    (hcol : ∀ a b : Fin n, (∑ j, (V j a).conj * V j b) = if a = b then 1 else 0)
    (hrow : ∀ i j : Fin n, (∑ a, V i a * (V j a).conj) = if i = j then 1 else 0)
    (heig : ∀ (a j : Fin n), (∑ i, gramL x j i * V i a) = Cx.ofRat (lam a) * V j a) :
    (∀ k l, k ≠ l →
      cInner (orthogonalize_eig x V k) (orthogonalize_eig x V l) = 0) ∧
    (∑ k, cInner (orthogonalize_eig x V k) (orthogonalize_eig x V k)) =
      Cx.ofRat (∑ j, ∑ q, (x j q).normSq) := by
  have heig' : ∀ (a j : Fin n),
      (∑ i, (∑ q, (x j q).conj * x i q) * V i a) = Cx.ofRat (lam a) * V j a := by
    intro a j
    rw [← heig a j]
    apply Finset.sum_congr rfl
    intro i _
    rw [gramL_eq]
  have hinner : ∀ k l : Fin n,
      cInner (orthogonalize_eig x V k) (orthogonalize_eig x V l) =
        Cx.ofRat (lam l.rev) * (if k.rev = l.rev then 1 else 0) := by
    intro k l
    unfold cInner orthogonalize_eig
    calc (∑ q, (∑ j, V j k.rev * x j q).conj * ∑ i, V i l.rev * x i q)
        = ∑ q, ∑ j, ∑ i,
            ((V j k.rev).conj * (x j q).conj) * (V i l.rev * x i q) := by
          apply Finset.sum_congr rfl
          intro q _
          rw [Cx.conj_sum, Finset.sum_mul]
          apply Finset.sum_congr rfl
          intro j _
          rw [Cx.conj_mul, Finset.mul_sum]
      _ = ∑ j, ∑ i, ((V j k.rev).conj * V i l.rev) *
            ∑ q, (x j q).conj * x i q := by
          rw [Finset.sum_comm]
          apply Finset.sum_congr rfl
          intro j _
          rw [Finset.sum_comm]
          apply Finset.sum_congr rfl
          intro i _
          rw [Finset.mul_sum]
          apply Finset.sum_congr rfl
          intro q _
          ring
      _ = ∑ j, (V j k.rev).conj * (Cx.ofRat (lam l.rev) * V j l.rev) := by
          apply Finset.sum_congr rfl
          intro j _
          rw [← heig' l.rev j, Finset.mul_sum]
          apply Finset.sum_congr rfl
          intro i _
          ring
      _ = Cx.ofRat (lam l.rev) * ∑ j, (V j k.rev).conj * V j l.rev := by
          rw [Finset.mul_sum]
          apply Finset.sum_congr rfl
          intro j _
          ring
      _ = Cx.ofRat (lam l.rev) * (if k.rev = l.rev then 1 else 0) := by
          rw [hcol]
  constructor
  · intro k l hkl
    rw [hinner k l, if_neg fun hr => hkl (Fin.rev_inj.mp hr), mul_zero]
  · have hdiag : ∀ k, cInner (orthogonalize_eig x V k) (orthogonalize_eig x V k) =
        Cx.ofRat (lam k.rev) := by
      intro k
      rw [hinner k k, if_pos rfl, mul_one]
    have hsum1 : (∑ k, cInner (orthogonalize_eig x V k) (orthogonalize_eig x V k)) =
        ∑ a, Cx.ofRat (lam a) := by
      rw [Finset.sum_congr rfl fun k _ => hdiag k]
      exact Finset.sum_bijective Fin.rev Fin.rev_bijective (by simp) fun k _ => rfl
    have h1 : ∀ a : Fin n, Cx.ofRat (lam a) =
        ∑ j, (V j a).conj * (Cx.ofRat (lam a) * V j a) := by
      intro a
      calc Cx.ofRat (lam a) = Cx.ofRat (lam a) * (if a = a then 1 else 0) := by
            rw [if_pos rfl, mul_one]
        _ = Cx.ofRat (lam a) * ∑ j, (V j a).conj * V j a := by rw [hcol]
        _ = ∑ j, (V j a).conj * (Cx.ofRat (lam a) * V j a) := by
            rw [Finset.mul_sum]
            apply Finset.sum_congr rfl
            intro j _
            ring
    have htrace : (∑ a, Cx.ofRat (lam a)) =
        Cx.ofRat (∑ j, ∑ q, (x j q).normSq) := by
      calc (∑ a, Cx.ofRat (lam a))
          = ∑ a, ∑ j, (V j a).conj *
              ∑ i, (∑ q, (x j q).conj * x i q) * V i a := by
            apply Finset.sum_congr rfl
            intro a _
            rw [h1 a]
            apply Finset.sum_congr rfl
            intro j _
            rw [heig' a j]
        _ = ∑ j, ∑ i, (∑ q, (x j q).conj * x i q) *
              ∑ a, V i a * (V j a).conj := by
            rw [Finset.sum_comm]
            apply Finset.sum_congr rfl
            intro j _
            calc (∑ a, (V j a).conj * ∑ i, (∑ q, (x j q).conj * x i q) * V i a)
                = ∑ a, ∑ i, (∑ q, (x j q).conj * x i q) *
                    (V i a * (V j a).conj) := by
                  apply Finset.sum_congr rfl
                  intro a _
                  rw [Finset.mul_sum]
                  apply Finset.sum_congr rfl
                  intro i _
                  ring
              _ = ∑ i, ∑ a, (∑ q, (x j q).conj * x i q) *
                    (V i a * (V j a).conj) := Finset.sum_comm
              _ = ∑ i, (∑ q, (x j q).conj * x i q) *
                    ∑ a, V i a * (V j a).conj := by
                  apply Finset.sum_congr rfl
                  intro i _
                  rw [Finset.mul_sum]
        _ = ∑ j, ∑ i, (∑ q, (x j q).conj * x i q) *
              (if i = j then 1 else 0) := by
            apply Finset.sum_congr rfl
            intro j _
            apply Finset.sum_congr rfl
            intro i _
            rw [hrow i j]
        _ = ∑ j, ∑ q, (x j q).conj * x j q := by
            apply Finset.sum_congr rfl
            intro j _
            rw [Finset.sum_eq_single j]
            · rw [if_pos rfl, mul_one]
            · intro i _ hij
              rw [if_neg hij, mul_zero]
            · intro hj
              exact absurd (Finset.mem_univ j) hj
        _ = ∑ j, ∑ q, Cx.ofRat (x j q).normSq := by
            apply Finset.sum_congr rfl
            intro j _
            apply Finset.sum_congr rfl
            intro q _
            rw [Cx.conj_mul_self]
        _ = Cx.ofRat (∑ j, ∑ q, (x j q).normSq) := by
            rw [Cx.ofRat_sum]
            apply Finset.sum_congr rfl
            intro j _
            rw [Cx.ofRat_sum]
    rw [hsum1, htrace]

lemma Cx.mk_add_mk (a b c d : ℚ) : (⟨a, b⟩ + ⟨c, d⟩ : Cx) = ⟨a + c, b + d⟩ := rfl

lemma Cx.mk_mul_mk (a b c d : ℚ) :
    (⟨a, b⟩ * ⟨c, d⟩ : Cx) = ⟨a * c - b * d, a * d + b * c⟩ := rfl

lemma Cx.conj_mk (a b : ℚ) : Cx.conj ⟨a, b⟩ = ⟨a, -b⟩ := rfl

lemma Cx.one_def : (1 : Cx) = ⟨1, 0⟩ := rfl

lemma Cx.zero_def : (0 : Cx) = ⟨0, 0⟩ := rfl

/-- A concrete two-mode stack with one pixel per mode: modes (2) and (0). -/
def xW : Fin 2 → Fin 1 → Cx := ![![⟨2, 0⟩], ![⟨0, 0⟩]]

/-- The identity eigenvector matrix for the gram matrix of xW. -/
def vW : Fin 2 → Fin 2 → Cx := ![![1, 0], ![0, 1]]

/-- The eigenvalues of the gram matrix of xW. -/
def lamW : Fin 2 → ℚ := ![4, 0]

/-- Witness for C7 at a concrete eigendecomposition: xW with identity
eigenvectors and eigenvalues (4, 0); the hypotheses hold and the theorem
yields orthogonality and energy preservation. -/
theorem claim7_orthogonalize_eig_witness :
    (∀ a b : Fin 2, (∑ j, (vW j a).conj * vW j b) = if a = b then 1 else 0) ∧
    (∀ i j : Fin 2, (∑ a, vW i a * (vW j a).conj) = if i = j then 1 else 0) ∧
    (∀ (a j : Fin 2), (∑ i, gramL xW j i * vW i a) = Cx.ofRat (lamW a) * vW j a) ∧
    ((∀ k l, k ≠ l →
      cInner (orthogonalize_eig xW vW k) (orthogonalize_eig xW vW l) = 0) ∧
    (∑ k, cInner (orthogonalize_eig xW vW k) (orthogonalize_eig xW vW k)) =
      Cx.ofRat (∑ j, ∑ q, (xW j q).normSq)) := by
  have hcol : ∀ a b : Fin 2, (∑ j, (vW j a).conj * vW j b) = if a = b then 1 else 0 := by
    intro a b
    fin_cases a <;> fin_cases b <;>
      simp [vW, Fin.sum_univ_two, Cx.conj_mk, Cx.mk_mul_mk, Cx.mk_add_mk, Cx.one_def,
        Cx.zero_def]
  have hrow : ∀ i j : Fin 2, (∑ a, vW i a * (vW j a).conj) = if i = j then 1 else 0 := by
    intro i j
    fin_cases i <;> fin_cases j <;>
      simp [vW, Fin.sum_univ_two, Cx.conj_mk, Cx.mk_mul_mk, Cx.mk_add_mk, Cx.one_def,
        Cx.zero_def]
  have heig : ∀ (a j : Fin 2),
      (∑ i, gramL xW j i * vW i a) = Cx.ofRat (lamW a) * vW j a := by
    intro a j
    fin_cases a <;> fin_cases j <;>
      simp [xW, vW, lamW, gramL, Cx.ofRat, Fin.sum_univ_two, Fin.sum_univ_one,
        Cx.conj_mk, Cx.mk_mul_mk, Cx.mk_add_mk, Cx.one_def, Cx.zero_def] <;> norm_num
  exact ⟨hcol, hrow, heig, claim7_orthogonalize_eig xW vW lamW hcol hrow heig⟩

end Tike
